import Mathlib

/-!
Verification of `src/nodejs/fix-images.js` (BackupQQEmoji).

The script inspects a directory of image files, sniffs each file's true
format from its leading bytes, and renames files whose extension disagrees
with the detected format.  We embed the script shallowly:

* bytes are `Nat` (a Node `Buffer` is a list of bytes; `buffer[i]` on an
  out-of-range index yields `undefined`, modelled by `List.get?` returning
  `none`);
* file names are `List Char`;
* the file system visible to one run is a list of `Entry` records; the
  flags `statOk` and `readable` model whether `fs.stat` and `fs.readFile`
  succeed on that entry;
* the batched concurrent loop of `processDirectory` is modelled by its
  sequential linearization: the listing is processed file by file in
  listing order, statistics being folded as per-file outcome deltas.
-/

namespace FixImages

/-- Index of the last occurrence of '.' in a character list
(`String.lastIndexOf('.')`, used by both `path.extname` and the
`/\.[^.]+$/` replacement). -/
def lastDotIdx : List Char → Option Nat
  | [] => none
  | c :: rest =>
    match lastDotIdx rest with
    | some i => some (i + 1)
    | none => if c = '.' then some 0 else none

/-- Model of `path.extname` on a slash-free basename: the substring from the last
dot to the end, except that a name whose only role for the last dot is the
leading character (hidden files like `.jpg`) and a dotless name both give
the empty extension. -/
def extnameChars (cs : List Char) : List Char :=
  match lastDotIdx cs with
  | none => []
  | some i => if i = 0 then [] else cs.drop i

/-- The source's `getFileExtension`:
`path.extname(filePath).toLowerCase().substring(1)`. -/
def getFileExtension (file : List Char) : List Char :=
  ((extnameChars file).map Char.toLower).drop 1

/-- The rename-target computation `file.replace(/\.[^.]+$/, "." + actualFormat)`: the regex matches
exactly when the name ends in a dot followed by at least one non-dot
character; since the matched run of non-dots reaches the end of the name,
the matched dot is the last dot of the name.  When there is no match the
name is returned unchanged. -/
def replaceLastExt (file : List Char) (fmt : List Char) : List Char :=
  match lastDotIdx file with
  | none => file
  | some i => if i + 1 < file.length then file.take i ++ '.' :: fmt else file

/-- Model of `buffer.toString('ascii', s, e)`: bytes `s` to `min e len`, each
masked to 7 bits (Node's `ascii` decoding). -/
def asciiSlice (b : List Nat) (s e : Nat) : List Char :=
  ((b.drop s).take (e - s)).map (fun x => Char.ofNat (x % 128))

/-- The signature-matching body of `detectImageFormat`, applied to the
bytes the `readFile` call produced.  `buffer[i] === c` on an out-of-range
index compares `undefined` with a number and is false, which
`b.get? i = some c` models exactly.  Returns `none` for the source's
`null` ("unknown"). -/
def detectFormat (b : List Nat) : Option (List Char) :=
  if b.get? 0 = some 0x47 ∧ b.get? 1 = some 0x49 ∧ b.get? 2 = some 0x46 then
    some "gif".data
  else if b.get? 0 = some 0xFF ∧ b.get? 1 = some 0xD8 ∧ b.get? 2 = some 0xFF then
    some "jpg".data
  else if b.get? 0 = some 0x89 ∧ b.get? 1 = some 0x50 ∧ b.get? 2 = some 0x4E ∧
      b.get? 3 = some 0x47 then
    some "png".data
  else if asciiSlice b 0 4 = "RIFF".data ∧ asciiSlice b 8 12 = "WEBP".data then
    some "webp".data
  else if b.get? 0 = some 0x42 ∧ b.get? 1 = some 0x4D then
    some "bmp".data
  else if (b.get? 0 = some 0x49 ∧ b.get? 1 = some 0x49 ∧ b.get? 2 = some 0x2A ∧
      b.get? 3 = some 0x00) ∨
      (b.get? 0 = some 0x4D ∧ b.get? 1 = some 0x4D ∧ b.get? 2 = some 0x00 ∧
      b.get? 3 = some 0x2A) then
    some "tiff".data
  else
    none

/-- One directory entry as one run of the script can observe it.
`statOk` tells whether `fs.stat` on this name succeeds, `readable`
whether `fs.readFile` succeeds; `content` is the file's bytes. -/
structure Entry where
  name : List Char
  isFile : Bool
  statOk : Bool
  readable : Bool
  content : List Nat
deriving DecidableEq, Repr

/-- The full `detectImageFormat`: read the file (the whole file: `fs.readFile`
ignores the `start`/`end` options the source passes) and sniff it; the
`catch` branch turns a read failure into `null`, indistinguishable from
an unknown format. -/
def detectImageFormat (e : Entry) : Option (List Char) :=
  if e.readable then detectFormat e.content else none

/-- The run statistics object `{ processed, renamed, errors }`. -/
structure Stats where
  processed : Nat
  renamed : Nat
  errors : Nat
deriving DecidableEq, Repr

/-- Pointwise sum of statistics, used to fold per-file outcome deltas. -/
def addStats (a b : Stats) : Stats :=
  ⟨a.processed + b.processed, a.renamed + b.renamed, a.errors + b.errors⟩

/-- The recognized image extensions (`imageExtensions` in the source). -/
def imageExtensions : List (List Char) :=
  ["jpg".data, "jpeg".data, "gif".data, "png".data, "webp".data, "bmp".data,
   "tiff".data]

/-- Model of `fs.stat` as a success test: true exactly when an entry with
that name exists and its `stat` call succeeds (used for the collision
check on the rename target). -/
def statOk? (st : List Entry) (n : List Char) : Bool :=
  match st.find? (fun e => decide (e.name = n)) with
  | some e => e.statOk
  | none => false

/-- The `needsRename` expression of the source, verbatim:
`(currentExtension !== actualFormat) &&
 !(currentExtension === 'jpeg' && actualFormat === 'jpg') &&
 !(currentExtension === 'jpg' && actualFormat === 'jpg')`. -/
def needsRename (currentExtension actualFormat : List Char) : Bool :=
  !decide (currentExtension = actualFormat) &&
  !(decide (currentExtension = "jpeg".data) && decide (actualFormat = "jpg".data)) &&
  !(decide (currentExtension = "jpg".data) && decide (actualFormat = "jpg".data))

/-- Model of `fs.rename(old, new)`: the entry named `old` now answers to `new`;
a pre-existing entry at `new` is overwritten (POSIX rename semantics).
Only the name changes; `content` and the other fields are untouched. -/
def renameFS (st : List Entry) (old new : List Char) : List Entry :=
  (st.filter (fun e => !decide (e.name = new))).map
    (fun e => if e.name = old then { e with name := new } else e)

/-- The per-file body of `processDirectory`'s loop.  Returns the file
system after this file and this file's statistics delta.  Branches, in
source order: `stat` failure is caught by the per-file `catch`
(`errors++`); non-files return; unrecognized extensions return;
`processed++`; undetectable format warns and returns; `needsRename`
decides; a `stat`-visible entry at the target path aborts the rename
(collision warning); otherwise the file is renamed and `renamed++`. -/
def processFile (st : List Entry) (file : List Char) : List Entry × Stats :=
  match st.find? (fun e => decide (e.name = file)) with
  | none => (st, ⟨0, 0, 1⟩)
  | some e =>
    if e.statOk = false then (st, ⟨0, 0, 1⟩)
    else if e.isFile = false then (st, ⟨0, 0, 0⟩)
    else if getFileExtension file ∉ imageExtensions then (st, ⟨0, 0, 0⟩)
    else
      match detectImageFormat e with
      | none => (st, ⟨1, 0, 0⟩)
      | some actualFormat =>
        if needsRename (getFileExtension file) actualFormat then
          if statOk? st (replaceLastExt file actualFormat) then (st, ⟨1, 0, 0⟩)
          else (renameFS st file (replaceLastExt file actualFormat), ⟨1, 1, 0⟩)
        else (st, ⟨1, 0, 0⟩)

/-- The loop of `processDirectory` over the listing returned by
`readdir`, linearized: each file's outcome delta is folded into the
aggregate, the file-system state threads through. -/
def processList : List (List Char) → List Entry → List Entry × Stats
  | [], st => (st, ⟨0, 0, 0⟩)
  | f :: rest, st =>
    let r := processFile st f
    let r2 := processList rest r.1
    (r2.1, addStats r.2 r2.2)

/-- A target directory: `listOk` tells whether `readdir` succeeds,
`entries` are its entries. -/
structure Dir where
  listOk : Bool
  entries : List Entry
deriving Repr

/-- The top-level `processDirectory`: list the directory and process every listed name;
if `readdir` fails, the outer `catch` logs the failure, increments
`errors` once and returns the (otherwise zero) statistics. -/
def processDirectory (d : Dir) : List Entry × Stats :=
  if d.listOk then processList (d.entries.map (·.name)) d.entries
  else (d.entries, ⟨0, 0, 1⟩)

/-- The `main` entry point paired with the process exit code.  `processDirectory` wraps
its whole body in `try`/`catch` and always resolves, so the
`main().catch(... process.exit(1))` handler is unreachable and the Node
process finishes with its default exit code 0 in every run. -/
def mainRun (d : Dir) : (List Entry × Stats) × Nat :=
  (processDirectory d, 0)

/-- Analysis helper (not in the source): true exactly when processing
`file` against state `st` would reach the collision branch, i.e. the
rename this file needs is skipped because the target name answers to
`stat`. -/
def fileCollides (st : List Entry) (file : List Char) : Bool :=
  match st.find? (fun e => decide (e.name = file)) with
  | none => false
  | some e =>
    if e.statOk = false then false
    else if e.isFile = false then false
    else if getFileExtension file ∉ imageExtensions then false
    else
      match detectImageFormat e with
      | none => false
      | some actualFormat =>
        if needsRename (getFileExtension file) actualFormat then
          statOk? st (replaceLastExt file actualFormat)
        else false

/-- Analysis helper: how many files of the run hit the collision branch. -/
def runCollisions : List (List Char) → List Entry → Nat
  | [], _ => 0
  | f :: rest, st =>
    (if fileCollides st f then 1 else 0) + runCollisions rest (processFile st f).1

/-- Analysis helper: the directory has no duplicate names (always true
of a real directory listing). -/
def nodupNames (st : List Entry) : Prop := (st.map (·.name)).Nodup

/-- Analysis helper: entry `e` still carries a wrong extension that a
run would want to fix — its `stat` succeeds, it is a regular file with a
recognized extension, its format is detectable, and the rename condition
holds for it. -/
def misnamed (e : Entry) : Prop :=
  e.statOk = true ∧ e.isFile = true ∧
  getFileExtension e.name ∈ imageExtensions ∧
  ∃ fmt, detectImageFormat e = some fmt ∧
    needsRename (getFileExtension e.name) fmt = true

/-! ## Concrete fixtures

Directory entries used by the concrete runs below: a real JPEG named
`x.jpg`, a GIF named `y.jpg`, an unreadable `z.png`, a PNG named `c.jpg`
next to a GIF named `c.png`, a GIF named `a.jpg`, a `d.txt` whose `stat`
fails, and a readable `d.txt` with GIF bytes. -/

def xJpg : Entry := ⟨"x.jpg".data, true, true, true, [0xFF, 0xD8, 0xFF, 0xE0]⟩

def yJpg : Entry := ⟨"y.jpg".data, true, true, true, [0x47, 0x49, 0x46, 0x38, 0x39, 0x61]⟩

def zPng : Entry := ⟨"z.png".data, true, true, false, [0x89, 0x50, 0x4E, 0x47]⟩

def cJpg : Entry := ⟨"c.jpg".data, true, true, true, [0x89, 0x50, 0x4E, 0x47, 0x0D, 0x0A]⟩

def cPng : Entry := ⟨"c.png".data, true, true, true, [0x47, 0x49, 0x46, 0x38]⟩

def aJpg : Entry := ⟨"a.jpg".data, true, true, true, [0x47, 0x49, 0x46, 0x38, 0x39, 0x61]⟩

def dTxt : Entry := ⟨"d.txt".data, true, false, true, []⟩

def dTxtOk : Entry := ⟨"d.txt".data, true, true, true, [0x47, 0x49, 0x46]⟩

/-! ## Branch lemmas for `processFile` -/

theorem processFile_find_none (st : List Entry) (file : List Char)
    (h : st.find? (fun x => decide (x.name = file)) = none) :
    processFile st file = (st, ⟨0, 0, 1⟩) := by
  simp [processFile, h]

theorem processFile_statFail (st : List Entry) (file : List Char) (e : Entry)
    (hfind : st.find? (fun x => decide (x.name = file)) = some e)
    (hstat : e.statOk = false) :
    processFile st file = (st, ⟨0, 0, 1⟩) := by
  simp [processFile, hfind, hstat]

theorem processFile_notFile (st : List Entry) (file : List Char) (e : Entry)
    (hfind : st.find? (fun x => decide (x.name = file)) = some e)
    (hstat : e.statOk = true) (hfile : e.isFile = false) :
    processFile st file = (st, ⟨0, 0, 0⟩) := by
  simp [processFile, hfind, hstat, hfile]

theorem processFile_extOut (st : List Entry) (file : List Char) (e : Entry)
    (hfind : st.find? (fun x => decide (x.name = file)) = some e)
    (hstat : e.statOk = true)
    (hext : getFileExtension file ∉ imageExtensions) :
    processFile st file = (st, ⟨0, 0, 0⟩) := by
  simp [processFile, hfind, hstat, hext]

theorem processFile_detect_none (st : List Entry) (file : List Char) (e : Entry)
    (hfind : st.find? (fun x => decide (x.name = file)) = some e)
    (hstat : e.statOk = true) (hfile : e.isFile = true)
    (hext : getFileExtension file ∈ imageExtensions)
    (hdet : detectImageFormat e = none) :
    processFile st file = (st, ⟨1, 0, 0⟩) := by
  simp [processFile, hfind, hstat, hfile, hext, hdet]

theorem processFile_noRename (st : List Entry) (file : List Char) (e : Entry)
    (fmt : List Char)
    (hfind : st.find? (fun x => decide (x.name = file)) = some e)
    (hstat : e.statOk = true) (hfile : e.isFile = true)
    (hext : getFileExtension file ∈ imageExtensions)
    (hdet : detectImageFormat e = some fmt)
    (hnr : needsRename (getFileExtension file) fmt = false) :
    processFile st file = (st, ⟨1, 0, 0⟩) := by
  simp [processFile, hfind, hstat, hfile, hext, hdet, hnr]

theorem processFile_collision (st : List Entry) (file : List Char) (e : Entry)
    (fmt : List Char)
    (hfind : st.find? (fun x => decide (x.name = file)) = some e)
    (hstat : e.statOk = true) (hfile : e.isFile = true)
    (hext : getFileExtension file ∈ imageExtensions)
    (hdet : detectImageFormat e = some fmt)
    (hnr : needsRename (getFileExtension file) fmt = true)
    (hcoll : statOk? st (replaceLastExt file fmt) = true) :
    processFile st file = (st, ⟨1, 0, 0⟩) := by
  simp [processFile, hfind, hstat, hfile, hext, hdet, hnr, hcoll]

theorem processFile_rename (st : List Entry) (file : List Char) (e : Entry)
    (fmt : List Char)
    (hfind : st.find? (fun x => decide (x.name = file)) = some e)
    (hstat : e.statOk = true) (hfile : e.isFile = true)
    (hext : getFileExtension file ∈ imageExtensions)
    (hdet : detectImageFormat e = some fmt)
    (hnr : needsRename (getFileExtension file) fmt = true)
    (hcoll : statOk? st (replaceLastExt file fmt) = false) :
    processFile st file = (renameFS st file (replaceLastExt file fmt), ⟨1, 1, 0⟩) := by
  simp [processFile, hfind, hstat, hfile, hext, hdet, hnr, hcoll]

/-- Every per-file outcome delta is one of the four literals produced by
the branches of `processFile`. -/
theorem processFile_delta_mem (st : List Entry) (file : List Char) :
    (processFile st file).2 ∈ ([⟨0, 0, 1⟩, ⟨0, 0, 0⟩, ⟨1, 0, 0⟩, ⟨1, 1, 0⟩] : List Stats) := by
  unfold processFile
  split
  · simp
  · split_ifs <;> try simp
    split
    · simp
    · split_ifs <;> simp

/-! ## Lemmas about extensions and extension replacement -/

theorem lastDotIdx_eq_none (cs : List Char) (h : '.' ∉ cs) : lastDotIdx cs = none := by
  induction cs with
  | nil => rfl
  | cons c rest ih =>
    have hc : ¬c = '.' := fun hc => h (hc ▸ List.mem_cons_self c rest)
    have hr : '.' ∉ rest := fun hm => h (List.mem_cons_of_mem c hm)
    simp [lastDotIdx, ih hr, hc]

theorem lastDotIdx_append (xs fmt : List Char) (h : '.' ∉ fmt) :
    lastDotIdx (xs ++ '.' :: fmt) = some xs.length := by
  induction xs with
  | nil => simp [lastDotIdx, lastDotIdx_eq_none fmt h]
  | cons c rest ih => simp [lastDotIdx, ih]

theorem lastDotIdx_le (cs : List Char) (i : Nat) (h : lastDotIdx cs = some i) :
    i < cs.length := by
  induction cs generalizing i with
  | nil => simp [lastDotIdx] at h
  | cons c rest ih =>
    rw [lastDotIdx] at h
    rcases hr : lastDotIdx rest with _ | j <;> rw [hr] at h
    · split_ifs at h
      · cases h; simp
    · cases h
      have := ih j hr
      simp
      omega

theorem extnameChars_none (cs : List Char) (h : lastDotIdx cs = none) :
    extnameChars cs = [] := by
  unfold extnameChars; rw [h]

theorem extnameChars_some (cs : List Char) (i : Nat) (h : lastDotIdx cs = some i) :
    extnameChars cs = if i = 0 then [] else cs.drop i := by
  unfold extnameChars; rw [h]

/-- A recognized (hence non-empty) extension forces a dot strictly
inside the name: the last dot of `file` sits at a positive index with at
least one character after it beyond the dot. -/
theorem ext_structure (file : List Char) (h : getFileExtension file ≠ []) :
    ∃ i, lastDotIdx file = some (i + 1) ∧ i + 2 < file.length := by
  unfold getFileExtension at h
  rcases hd : lastDotIdx file with _ | j
  · rw [extnameChars_none file hd] at h
    simp at h
  · rw [extnameChars_some file j hd] at h
    rcases Nat.eq_zero_or_pos j with hj | hj
    · subst hj; simp at h
    · obtain ⟨i, rfl⟩ : ∃ i, j = i + 1 := ⟨j - 1, by omega⟩
      refine ⟨i, rfl, ?_⟩
      rw [if_neg (by omega : ¬i + 1 = 0)] at h
      rw [← List.length_pos] at h
      simp [List.length_drop] at h
      omega

/-- Replacing the extension with a dotless, lowercase, non-empty format
tag yields a name whose extracted extension is exactly that tag. -/
theorem getFileExtension_replaceLastExt (file fmt : List Char)
    (hne : getFileExtension file ≠ [])
    (hdot : '.' ∉ fmt) (hlow : fmt.map Char.toLower = fmt) :
    getFileExtension (replaceLastExt file fmt) = fmt := by
  obtain ⟨i, hd, hlt⟩ := ext_structure file hne
  have htake : (file.take (i + 1)).length = i + 1 := by
    rw [List.length_take]; omega
  have hrepl : replaceLastExt file fmt = file.take (i + 1) ++ '.' :: fmt := by
    unfold replaceLastExt
    rw [hd]
    simp only [if_pos (by omega : i + 1 + 1 < file.length)]
  rw [hrepl]
  have hidx : lastDotIdx (file.take (i + 1) ++ '.' :: fmt) = some (i + 1) := by
    rw [lastDotIdx_append _ _ hdot, htake]
  unfold getFileExtension
  rw [extnameChars_some _ _ hidx]
  have hdrop : (file.take (i + 1) ++ '.' :: fmt).drop (i + 1) = '.' :: fmt := by
    have := List.drop_left (file.take (i + 1)) ('.' :: fmt)
    rw [htake] at this
    exact this
  rw [if_neg (by omega : ¬i + 1 = 0), hdrop]
  simp [hlow]

/-! ## Lemmas about the sniffer's possible outputs -/

/-- The sniffer returns `none` or one of the six format tags. -/
theorem detectFormat_cases (b : List Nat) :
    detectFormat b = none ∨ detectFormat b = some "gif".data ∨
    detectFormat b = some "jpg".data ∨ detectFormat b = some "png".data ∨
    detectFormat b = some "webp".data ∨ detectFormat b = some "bmp".data ∨
    detectFormat b = some "tiff".data := by
  unfold detectFormat
  split_ifs <;> simp

/-- Every tag the sniffer can produce is non-empty, dotless and
lowercase (so it survives `getFileExtension` unchanged). -/
theorem detectFormat_tag_props (b : List Nat) (f : List Char)
    (h : detectFormat b = some f) :
    f ≠ [] ∧ '.' ∉ f ∧ f.map Char.toLower = f := by
  rcases detectFormat_cases b with hc | hc | hc | hc | hc | hc | hc
  · rw [hc] at h; cases h
  all_goals rw [hc] at h
  all_goals injection h with h2
  all_goals subst h2
  all_goals exact ⟨by decide, by decide, by decide⟩

theorem detectImageFormat_tag_props (e : Entry) (f : List Char)
    (h : detectImageFormat e = some f) :
    f ≠ [] ∧ '.' ∉ f ∧ f.map Char.toLower = f := by
  unfold detectImageFormat at h
  split_ifs at h
  exact detectFormat_tag_props _ _ h

/-- The fold of per-file deltas keeps `renamed` below `processed`. -/
theorem processList_renamed_le (names : List (List Char)) (st : List Entry) :
    (processList names st).2.renamed ≤ (processList names st).2.processed := by
  induction names generalizing st with
  | nil => simp [processList]
  | cons f rest ih =>
    have hd := processFile_delta_mem st f
    have hr := ih (processFile st f).1
    simp only [List.mem_cons, List.not_mem_nil, or_false] at hd
    rcases hd with h | h | h | h <;>
      simp [processList, addStats, h] <;> omega

/-! ## Run analysis: exhaustive branch case split, name uniqueness,
and the post-run absence of misnamed entries -/

/-- Exhaustive case analysis of one `processFile` step: exactly one of
the eight branches fires, and each reports its guarding conditions. -/
theorem processFile_exhaustive (st : List Entry) (file : List Char) :
    (st.find? (fun x => decide (x.name = file)) = none ∧
      processFile st file = (st, ⟨0, 0, 1⟩)) ∨
    (∃ e, st.find? (fun x => decide (x.name = file)) = some e ∧
      (e.statOk = false ∧ processFile st file = (st, ⟨0, 0, 1⟩) ∨
       e.statOk = true ∧ e.isFile = false ∧ processFile st file = (st, ⟨0, 0, 0⟩) ∨
       e.statOk = true ∧ e.isFile = true ∧
         getFileExtension file ∉ imageExtensions ∧
         processFile st file = (st, ⟨0, 0, 0⟩) ∨
       e.statOk = true ∧ e.isFile = true ∧
         getFileExtension file ∈ imageExtensions ∧
         detectImageFormat e = none ∧ processFile st file = (st, ⟨1, 0, 0⟩) ∨
       (∃ fmt, e.statOk = true ∧ e.isFile = true ∧
         getFileExtension file ∈ imageExtensions ∧
         detectImageFormat e = some fmt ∧
         (needsRename (getFileExtension file) fmt = false ∧
            processFile st file = (st, ⟨1, 0, 0⟩) ∨
          needsRename (getFileExtension file) fmt = true ∧
            statOk? st (replaceLastExt file fmt) = true ∧
            processFile st file = (st, ⟨1, 0, 0⟩) ∨
          needsRename (getFileExtension file) fmt = true ∧
            statOk? st (replaceLastExt file fmt) = false ∧
            processFile st file =
              (renameFS st file (replaceLastExt file fmt), ⟨1, 1, 0⟩))))) := by
  rcases hfind : st.find? (fun x => decide (x.name = file)) with _ | e
  · exact Or.inl ⟨hfind, processFile_find_none st file hfind⟩
  · refine Or.inr ⟨e, hfind, ?_⟩
    cases hstat : e.statOk with
    | false => exact Or.inl ⟨rfl, processFile_statFail st file e hfind hstat⟩
    | true =>
      cases hfile : e.isFile with
      | false =>
        exact Or.inr (Or.inl ⟨rfl, rfl, processFile_notFile st file e hfind hstat hfile⟩)
      | true =>
        by_cases hext : getFileExtension file ∈ imageExtensions
        · rcases hdet : detectImageFormat e with _ | fmt
          · exact Or.inr (Or.inr (Or.inr (Or.inl
              ⟨rfl, rfl, hext, rfl, processFile_detect_none st file e hfind hstat hfile hext hdet⟩)))
          · refine Or.inr (Or.inr (Or.inr (Or.inr ⟨fmt, rfl, rfl, hext, rfl, ?_⟩)))
            cases hnr : needsRename (getFileExtension file) fmt with
            | false =>
              exact Or.inl ⟨rfl, processFile_noRename st file e fmt hfind hstat hfile hext hdet hnr⟩
            | true =>
              cases hcoll : statOk? st (replaceLastExt file fmt) with
              | true =>
                exact Or.inr (Or.inl ⟨rfl, rfl,
                  processFile_collision st file e fmt hfind hstat hfile hext hdet hnr hcoll⟩)
              | false =>
                exact Or.inr (Or.inr ⟨rfl, rfl,
                  processFile_rename st file e fmt hfind hstat hfile hext hdet hnr hcoll⟩)
        · exact Or.inr (Or.inr (Or.inl
            ⟨rfl, rfl, hext, processFile_extOut st file e hfind hstat hext⟩))

/-- Renaming keeps directory names duplicate-free: the target name is
first removed, and the renaming map is injective on the remaining
names. -/
theorem renameFS_nodup (st : List Entry) (old new : List Char)
    (h : nodupNames st) : nodupNames (renameFS st old new) := by
  unfold nodupNames renameFS at *
  rw [List.map_map]
  have hmap : (st.filter (fun e => !decide (e.name = new))).map
      ((·.name) ∘ fun e => if e.name = old then { e with name := new } else e) =
      ((st.filter (fun e => !decide (e.name = new))).map (·.name)).map
      (fun x => if x = old then new else x) := by
    rw [List.map_map]
    apply List.map_congr_left
    intro e _
    by_cases he : e.name = old
    · simp [he]
    · simp [he]
  rw [hmap]
  have hsub : (((st.filter (fun e => !decide (e.name = new))).map (·.name))).Nodup :=
    List.Nodup.sublist ((List.filter_sublist st).map (·.name)) h
  have hnotnew : ∀ x ∈ (st.filter (fun e => !decide (e.name = new))).map (·.name),
      x ≠ new := by
    intro x hx
    obtain ⟨e, he, rfl⟩ := List.mem_map.mp hx
    have := (List.mem_filter.mp he).2
    simpa using this
  refine List.Nodup.map_on ?_ hsub
  intro x hx y hy hxy
  by_cases hxo : x = old <;> by_cases hyo : y = old
  · rw [hxo, hyo]
  · rw [if_pos hxo, if_neg hyo] at hxy
    exact absurd hxy.symm (hnotnew y hy)
  · rw [if_neg hxo, if_pos hyo] at hxy
    exact absurd hxy (hnotnew x hx)
  · rwa [if_neg hxo, if_neg hyo] at hxy

/-- One processing step keeps directory names duplicate-free. -/
theorem processFile_nodup (st : List Entry) (file : List Char)
    (h : nodupNames st) : nodupNames (processFile st file).1 := by
  rcases processFile_exhaustive st file with ⟨_, hp⟩ | ⟨e, _, hcase⟩
  · rw [hp]; exact h
  · rcases hcase with ⟨_, hp⟩ | ⟨_, _, hp⟩ | ⟨_, _, _, hp⟩ | ⟨_, _, _, _, hp⟩ |
      ⟨fmt, _, _, _, _, hsub⟩
    · rw [hp]; exact h
    · rw [hp]; exact h
    · rw [hp]; exact h
    · rw [hp]; exact h
    · rcases hsub with ⟨_, hp⟩ | ⟨_, _, hp⟩ | ⟨_, _, hp⟩
      · rw [hp]; exact h
      · rw [hp]; exact h
      · rw [hp]; exact renameFS_nodup st file (replaceLastExt file fmt) h

/-- With duplicate-free names, two entries with the same name coincide. -/
theorem nodup_unique (st : List Entry) (h : nodupNames st) (e e' : Entry)
    (he : e ∈ st) (he' : e' ∈ st) (hn : e.name = e'.name) : e = e' :=
  List.inj_on_of_nodup_map h he he' hn

/-- The entry `find?` returns for a name is indeed named that way. -/
theorem find?_name_eq {st : List Entry} {n : List Char} {e : Entry}
    (h : st.find? (fun x => decide (x.name = n)) = some e) : e.name = n := by
  have hp := List.find?_some h
  simpa using hp

/-- Sniffing ignores the name: renaming an entry does not change its
detected format. -/
theorem detectImageFormat_rename (e : Entry) (nn : List Char) :
    detectImageFormat { e with name := nn } = detectImageFormat e := by
  cases e
  rfl

/-- A step on a directory with no misnamed entry changes nothing and
renames nothing. -/
theorem processFile_clean (st : List Entry) (f : List Char)
    (h : ∀ e ∈ st, ¬misnamed e) :
    (processFile st f).1 = st ∧ (processFile st f).2.renamed = 0 := by
  rcases processFile_exhaustive st f with ⟨_, hp⟩ | ⟨e, hfind, hcase⟩
  · rw [hp]; exact ⟨rfl, rfl⟩
  · have hename : e.name = f := find?_name_eq hfind
    have hmem : e ∈ st := List.mem_of_find?_eq_some hfind
    rcases hcase with ⟨_, hp⟩ | ⟨_, _, hp⟩ | ⟨_, _, _, hp⟩ | ⟨_, _, _, _, hp⟩ |
      ⟨fmt, hstat, hfile, hext, hdet, hsub⟩
    · rw [hp]; exact ⟨rfl, rfl⟩
    · rw [hp]; exact ⟨rfl, rfl⟩
    · rw [hp]; exact ⟨rfl, rfl⟩
    · rw [hp]; exact ⟨rfl, rfl⟩
    · rcases hsub with ⟨_, hp⟩ | ⟨_, _, hp⟩ | ⟨hnr, hcoll, hp⟩
      · rw [hp]; exact ⟨rfl, rfl⟩
      · rw [hp]; exact ⟨rfl, rfl⟩
      · exact absurd
          (show misnamed e from
            ⟨hstat, hfile, by rwa [hename], fmt, hdet, by rwa [hename]⟩)
          (h e hmem)

/-- A run on a directory with no misnamed entry leaves it unchanged and
performs zero renames. -/
theorem processList_clean (names : List (List Char)) (st : List Entry)
    (h : ∀ e ∈ st, ¬misnamed e) :
    (processList names st).1 = st ∧ (processList names st).2.renamed = 0 := by
  induction names generalizing st with
  | nil => exact ⟨rfl, rfl⟩
  | cons f rest ih =>
    obtain ⟨hst, hren⟩ := processFile_clean st f h
    have hrest := ih st h
    simp only [processList]
    rw [hst]
    exact ⟨hrest.1, by simp [addStats, hren, hrest.2]⟩

/-- Core invariant of a collision-free run: if every misnamed entry's
name is still in the unprocessed part of the listing, then after the run
no misnamed entry remains. -/
theorem processList_fixes (names : List (List Char)) (st : List Entry)
    (hnd : nodupNames st)
    (hinv : ∀ e ∈ st, misnamed e → e.name ∈ names)
    (hzero : runCollisions names st = 0) :
    ∀ e ∈ (processList names st).1, ¬misnamed e := by
  induction names generalizing st with
  | nil =>
    intro e he hbad
    simp only [processList] at he
    exact absurd (hinv e he hbad) (List.not_mem_nil _)
  | cons f rest ih =>
    have hnd1 : nodupNames (processFile st f).1 := processFile_nodup st f hnd
    have hfc : fileCollides st f = false := by
      rw [runCollisions] at hzero
      cases hb : fileCollides st f
      · rfl
      · rw [hb] at hzero; simp at hzero
    have hzero1 : runCollisions rest (processFile st f).1 = 0 := by
      rw [runCollisions, hfc] at hzero
      simpa using hzero
    have hinv1 : ∀ e ∈ (processFile st f).1, misnamed e → e.name ∈ rest := by
      rcases processFile_exhaustive st f with ⟨hfind, hp⟩ | ⟨e, hfind, hcase⟩
      · rw [hp]
        intro e' he' hbad'
        rcases List.mem_cons.mp (hinv e' he' hbad') with hn | hn
        · exfalso
          rw [List.find?_eq_none] at hfind
          exact hfind e' he' (by simp [hn])
        · exact hn
      · have hename : e.name = f := find?_name_eq hfind
        have hmem : e ∈ st := List.mem_of_find?_eq_some hfind
        rcases hcase with ⟨hstat, hp⟩ | ⟨hstat, hfile, hp⟩ | ⟨hstat, hfile, hext, hp⟩ |
          ⟨hstat, hfile, hext, hdet, hp⟩ | ⟨fmt, hstat, hfile, hext, hdet, hsub⟩
        · rw [hp]
          intro e' he' hbad'
          rcases List.mem_cons.mp (hinv e' he' hbad') with hn | hn
          · exfalso
            have : e = e' := nodup_unique st hnd e e' hmem he' (by rw [hename, hn])
            rw [← this] at hbad'
            rw [hbad'.1] at hstat
            cases hstat
          · exact hn
        · rw [hp]
          intro e' he' hbad'
          rcases List.mem_cons.mp (hinv e' he' hbad') with hn | hn
          · exfalso
            have : e = e' := nodup_unique st hnd e e' hmem he' (by rw [hename, hn])
            rw [← this] at hbad'
            rw [hbad'.2.1] at hfile
            cases hfile
          · exact hn
        · rw [hp]
          intro e' he' hbad'
          rcases List.mem_cons.mp (hinv e' he' hbad') with hn | hn
          · exfalso
            have : e = e' := nodup_unique st hnd e e' hmem he' (by rw [hename, hn])
            rw [← this] at hbad'
            exact hext (hename ▸ hbad'.2.2.1)
          · exact hn
        · rw [hp]
          intro e' he' hbad'
          rcases List.mem_cons.mp (hinv e' he' hbad') with hn | hn
          · exfalso
            have : e = e' := nodup_unique st hnd e e' hmem he' (by rw [hename, hn])
            obtain ⟨_, _, _, fmt', hdet', _⟩ := hbad'
            rw [← this, hdet] at hdet'
            cases hdet'
          · exact hn
        · rcases hsub with ⟨hnr, hp⟩ | ⟨hnr, hcoll, hp⟩ | ⟨hnr, hcoll, hp⟩
          · rw [hp]
            intro e' he' hbad'
            rcases List.mem_cons.mp (hinv e' he' hbad') with hn | hn
            · exfalso
              have : e = e' := nodup_unique st hnd e e' hmem he' (by rw [hename, hn])
              obtain ⟨_, _, _, fmt', hdet', hnr'⟩ := hbad'
              rw [← this, hdet] at hdet'
              injection hdet' with hfmt
              rw [← this, hename, ← hfmt] at hnr'
              rw [hnr'] at hnr
              cases hnr
            · exact hn
          · exfalso
            have : fileCollides st f = true := by
              simp [fileCollides, hfind, hstat, hfile, hext, hdet, hnr, hcoll]
            rw [this] at hfc
            cases hfc
          · rw [hp]
            intro e' he' hbad'
            obtain ⟨e1, he1, heq⟩ := List.mem_map.mp he'
            have he1st : e1 ∈ st := (List.mem_filter.mp he1).1
            by_cases hn1 : e1.name = f
            · exfalso
              have he1e : e = e1 := nodup_unique st hnd e e1 hmem he1st (by rw [hename, hn1])
              rw [if_pos hn1] at heq
              obtain ⟨hfne, hfdot, hflow⟩ := detectImageFormat_tag_props e fmt hdet
              have hextne : getFileExtension f ≠ [] := by
                intro h0; rw [h0] at hext; revert hext; decide
              have hrext : getFileExtension (replaceLastExt f fmt) = fmt :=
                getFileExtension_replaceLastExt f fmt hextne hfdot hflow
              obtain ⟨_, _, _, fmt', hdet', hnr'⟩ := hbad'
              rw [← heq] at hdet' hnr'
              rw [← he1e] at hdet' hnr'
              rw [detectImageFormat_rename, hdet] at hdet'
              injection hdet' with hfmt
              have : needsRename fmt fmt = true := by
                have hname' : ({ e with name := replaceLastExt f fmt } : Entry).name =
                    replaceLastExt f fmt := rfl
                rw [hname', hrext, ← hfmt] at hnr'
                exact hnr'
              simp [needsRename] at this
            · rw [if_neg hn1] at heq
              rw [← heq]
              have hbad1 : misnamed e1 := by rw [heq]; exact hbad'
              rcases List.mem_cons.mp (hinv e1 he1st hbad1) with hn | hn
              · exact absurd hn hn1
              · exact hn
    have := ih (processFile st f).1 hnd1 hinv1 hzero1
    intro e he
    apply this
    simpa [processList] using he

/-! ## Claims -/

/-- Claim C6: for every byte buffer whose first 3 bytes are
`47 49 46` (ASCII "GIF"), the sniffer returns the `gif` tag, regardless
of the buffer's length beyond 3 bytes and of all trailing bytes. -/
theorem c6_gif_detected (b : List Nat) (h0 : b.get? 0 = some 0x47)
    (h1 : b.get? 1 = some 0x49) (h2 : b.get? 2 = some 0x46) :
    detectFormat b = some "gif".data := by
  rw [List.get?_eq_getElem?] at h0 h1 h2
  simp [detectFormat, h0, h1, h2]

/-- Witness for C6 at a concrete buffer with arbitrary trailing bytes. -/
theorem c6_gif_detected_witness :
    detectFormat [0x47, 0x49, 0x46, 0xFF, 0x00, 0x13] = some "gif".data :=
  c6_gif_detected _ rfl rfl rfl

/-- Claim C7: the sniffer never fails: on every buffer it returns one of
the six tags or `none` ("unknown"); in particular every buffer shorter
than the shortest signature (the 2-byte BMP signature) yields `none`. -/
theorem c7_sniffer_total :
    (∀ b : List Nat, detectFormat b = none ∨ detectFormat b = some "gif".data ∨
      detectFormat b = some "jpg".data ∨ detectFormat b = some "png".data ∨
      detectFormat b = some "webp".data ∨ detectFormat b = some "bmp".data ∨
      detectFormat b = some "tiff".data) ∧
    (∀ b : List Nat, b.length < 2 → detectFormat b = none) := by
  refine ⟨detectFormat_cases, fun b hb => ?_⟩
  have hR : "RIFF".data = ['R', 'I', 'F', 'F'] := rfl
  rcases b with _ | ⟨x, _ | ⟨y, rest⟩⟩
  · rfl
  · simp [detectFormat, asciiSlice, List.get?, hR]
  · simp only [List.length_cons] at hb
    omega

/-- Witness for C7: the empty and one-byte buffers give `unknown`, and
the tag of a concrete buffer is in the allowed set. -/
theorem c7_sniffer_total_witness :
    detectFormat [0x47] = none ∧
    (detectFormat [0x42, 0x4D] = none ∨ detectFormat [0x42, 0x4D] = some "gif".data ∨
      detectFormat [0x42, 0x4D] = some "jpg".data ∨
      detectFormat [0x42, 0x4D] = some "png".data ∨
      detectFormat [0x42, 0x4D] = some "webp".data ∨
      detectFormat [0x42, 0x4D] = some "bmp".data ∨
      detectFormat [0x42, 0x4D] = some "tiff".data) :=
  ⟨c7_sniffer_total.2 [0x47] (by decide), c7_sniffer_total.1 [0x42, 0x4D]⟩

/-- Claim C4: a rename is needed exactly when the detected tag differs
from the lower-cased current extension, except that `jpg` and `jpeg`
both count as matching the detected JPEG tag (which the code spells
`jpg`); and a `FF D8 FF` header is detected as that JPEG tag, so neither
a `.jpg` nor a `.jpeg` file with a true JPEG header is renamed. -/
theorem c4_rename_condition :
    (∀ ce fmt : List Char, needsRename ce fmt = true ↔
      (ce ≠ fmt ∧ ¬(fmt = "jpg".data ∧ (ce = "jpg".data ∨ ce = "jpeg".data)))) ∧
    (∀ b : List Nat, b.get? 0 = some 0xFF → b.get? 1 = some 0xD8 → b.get? 2 = some 0xFF →
      detectFormat b = some "jpg".data) ∧
    needsRename "jpg".data "jpg".data = false ∧
    needsRename "jpeg".data "jpg".data = false := by
  refine ⟨fun ce fmt => ?_, fun b h0 h1 h2 => ?_, by decide, by decide⟩
  · simp only [needsRename, Bool.and_eq_true, Bool.not_eq_true',
      decide_eq_false_iff_not, Bool.and_eq_false_iff, decide_eq_true_eq,
      Bool.not_eq_true]
    tauto
  · rw [List.get?_eq_getElem?] at h0 h1 h2
    simp [detectFormat, h0, h1, h2]

/-- Witness for C4 at concrete extensions and a concrete JPEG header. -/
theorem c4_rename_condition_witness :
    needsRename "jpg".data "gif".data = true ∧
    detectFormat [0xFF, 0xD8, 0xFF, 0xDB] = some "jpg".data ∧
    needsRename "jpeg".data "jpg".data = false :=
  ⟨(c4_rename_condition.1 _ _).mpr (by decide),
   c4_rename_condition.2.1 [0xFF, 0xD8, 0xFF, 0xDB] rfl rfl rfl,
   c4_rename_condition.2.2.2⟩

/-- Claim C5: a file that needs a rename whose target path already
answers to `stat` is skipped: the file system is unchanged (nothing is
overwritten, the file keeps its name) and only `processed` is counted —
neither `renamed` nor `errors`. -/
theorem c5_collision_skip (st : List Entry) (file : List Char) (e : Entry)
    (fmt : List Char)
    (hfind : st.find? (fun x => decide (x.name = file)) = some e)
    (hstat : e.statOk = true) (hfile : e.isFile = true)
    (hext : getFileExtension file ∈ imageExtensions)
    (hdet : detectImageFormat e = some fmt)
    (hnr : needsRename (getFileExtension file) fmt = true)
    (hcoll : statOk? st (replaceLastExt file fmt) = true) :
    processFile st file = (st, ⟨1, 0, 0⟩) :=
  processFile_collision st file e fmt hfind hstat hfile hext hdet hnr hcoll

/-- Witness for C5: `c.jpg` holding PNG bytes next to an existing
`c.png`: the collision is detected and nothing changes. -/
theorem c5_collision_skip_witness :
    processFile [cJpg, cPng] "c.jpg".data = ([cJpg, cPng], ⟨1, 0, 0⟩) :=
  c5_collision_skip [cJpg, cPng] "c.jpg".data cJpg "png".data
    (by decide) rfl rfl (by decide) (by decide) (by decide) (by decide)

/-- Claim C9 (counterexample): a `d.txt` entry is not always free of
statistics: when its `stat` call fails, the per-file `catch` fires
before the extension filter is consulted, so `errors` is incremented for
a non-image entry. -/
theorem c9_counterexample :
    (processDirectory ⟨true, [dTxt]⟩).2 = ⟨0, 0, 1⟩ ∧
    (processDirectory ⟨true, [dTxt]⟩).2.errors ≠ 0 := by
  decide

/-- Claim C9 (amended): every directory entry whose `stat` call succeeds
and whose lower-cased extension is outside the recognized set changes no
statistic and leaves the file system untouched; its header plays no role
(the conclusion holds whatever `readable` and `content` are). -/
theorem c9_non_image_untouched (st : List Entry) (file : List Char) (e : Entry)
    (hfind : st.find? (fun x => decide (x.name = file)) = some e)
    (hstat : e.statOk = true)
    (hext : getFileExtension file ∉ imageExtensions) :
    processFile st file = (st, ⟨0, 0, 0⟩) :=
  processFile_extOut st file e hfind hstat hext

/-- Witness for C9 at a readable `d.txt` that even contains GIF bytes. -/
theorem c9_non_image_untouched_witness :
    processFile [dTxtOk] "d.txt".data = ([dTxtOk], ⟨0, 0, 0⟩) :=
  c9_non_image_untouched [dTxtOk] "d.txt".data dTxtOk (by decide) rfl (by decide)

/-- Claim C1 (counterexample): the spec's end-to-end scenario — `x.jpg`
a real JPEG, `y.jpg` with GIF content, `z.png` unreadable — yields
`errors = 0`, not `errors = 1`: the header-read failure is swallowed
inside `detectImageFormat` (which returns `null`) and handled as an
unknown format, not counted as an error. -/
theorem c1_counterexample :
    (processDirectory ⟨true, [xJpg, yJpg, zPng]⟩).2 = ⟨3, 1, 0⟩ ∧
    (processDirectory ⟨true, [xJpg, yJpg, zPng]⟩).2.errors ≠ 1 := by
  decide

/-- Claim C1 (amended): a recognized image file whose header bytes
cannot be read is counted in `processed` only — `errors` is *not*
incremented (the read failure is indistinguishable from an unknown
format) — the file and the rest of the file system stay untouched, and
the run continues with the remaining files. -/
theorem c1_read_failure_no_error (st : List Entry) (file : List Char) (e : Entry)
    (rest : List (List Char))
    (hfind : st.find? (fun x => decide (x.name = file)) = some e)
    (hstat : e.statOk = true) (hfile : e.isFile = true)
    (hext : getFileExtension file ∈ imageExtensions)
    (hread : e.readable = false) :
    processFile st file = (st, ⟨1, 0, 0⟩) ∧
    processList (file :: rest) st =
      ((processList rest st).1, addStats ⟨1, 0, 0⟩ (processList rest st).2) := by
  have hdet : detectImageFormat e = none := by
    simp [detectImageFormat, hread]
  have h1 := processFile_detect_none st file e hfind hstat hfile hext hdet
  refine ⟨h1, ?_⟩
  simp [processList, h1]

/-- Witness for C1 at the unreadable `z.png`. -/
theorem c1_read_failure_no_error_witness :
    processFile [zPng] "z.png".data = ([zPng], ⟨1, 0, 0⟩) ∧
    processList ["z.png".data] [zPng] =
      ((processList [] [zPng]).1, addStats ⟨1, 0, 0⟩ (processList [] [zPng]).2) :=
  c1_read_failure_no_error [zPng] "z.png".data zPng [] (by decide) rfl rfl
    (by decide) rfl

/-- Claim C2 (counterexample): when the target directory cannot be
listed the process still exits zero — `main` never rejects, because
`processDirectory` traps the `readdir` failure itself — while the claim
demands a non-zero exit. The statistics do show exactly one error. -/
theorem c2_counterexample :
    (mainRun ⟨false, []⟩).2 = 0 ∧
    (processDirectory ⟨false, []⟩).2 = ⟨0, 0, 1⟩ := by
  decide

/-- Claim C2 (amended): every run exits zero, whether or not the
directory listing succeeds; a listing failure is recorded as a top-level
error — `errors` becomes 1 with no other statistic incremented and the
directory untouched. -/
theorem c2_exit_zero (d : Dir) :
    (mainRun d).2 = 0 ∧
    (d.listOk = false → processDirectory d = (d.entries, ⟨0, 0, 1⟩)) := by
  refine ⟨rfl, fun h => ?_⟩
  simp [processDirectory, h]

/-- Witness for C2 at a directory whose listing fails. -/
theorem c2_exit_zero_witness :
    (mainRun ⟨false, [dTxt]⟩).2 = 0 ∧
    processDirectory ⟨false, [dTxt]⟩ = ([dTxt], ⟨0, 0, 1⟩) :=
  ⟨(c2_exit_zero ⟨false, [dTxt]⟩).1, (c2_exit_zero ⟨false, [dTxt]⟩).2 rfl⟩

/-- Claim C10: in every run the returned statistics satisfy
`renamed ≤ processed`: each file's outcome delta increments `renamed`
only if it also increments `processed`, and the top-level failure branch
increments neither. -/
theorem c10_renamed_le_processed (d : Dir) :
    (processDirectory d).2.renamed ≤ (processDirectory d).2.processed := by
  unfold processDirectory
  split
  · exact processList_renamed_le _ _
  · simp

/-- Claim C8: a performed rename replaces the final extension of the old
name with the detected format's canonical extension — the new name's
extracted extension equals the detected tag — and the entry keeps its
byte content (and all other fields): only the name field changes. -/
theorem c8_rename_shape (st : List Entry) (file : List Char) (e : Entry)
    (fmt : List Char)
    (hfind : st.find? (fun x => decide (x.name = file)) = some e)
    (hstat : e.statOk = true) (hfile : e.isFile = true)
    (hext : getFileExtension file ∈ imageExtensions)
    (hdet : detectImageFormat e = some fmt)
    (hnr : needsRename (getFileExtension file) fmt = true)
    (hcoll : statOk? st (replaceLastExt file fmt) = false) :
    processFile st file = (renameFS st file (replaceLastExt file fmt), ⟨1, 1, 0⟩) ∧
    getFileExtension (replaceLastExt file fmt) = fmt ∧
    { e with name := replaceLastExt file fmt } ∈
      renameFS st file (replaceLastExt file fmt) := by
  obtain ⟨hfne, hfdot, hflow⟩ := detectImageFormat_tag_props e fmt hdet
  have hextne : getFileExtension file ≠ [] := by
    intro h0; rw [h0] at hext; revert hext; decide
  have hrext : getFileExtension (replaceLastExt file fmt) = fmt :=
    getFileExtension_replaceLastExt file fmt hextne hfdot hflow
  have hename : e.name = file := find?_name_eq hfind
  have hmem : e ∈ st := List.mem_of_find?_eq_some hfind
  have hneq : ¬(e.name = replaceLastExt file fmt) := by
    intro hEq
    rw [hename] at hEq
    rw [← hEq] at hrext
    rw [hrext] at hnr
    simp [needsRename] at hnr
  refine ⟨processFile_rename st file e fmt hfind hstat hfile hext hdet hnr hcoll,
    hrext, ?_⟩
  unfold renameFS
  refine List.mem_map.mpr ⟨e, List.mem_filter.mpr ⟨hmem, ?_⟩, ?_⟩
  · simp [hneq]
  · rw [if_pos hename]

/-- Witness for C8: the GIF-content `a.jpg` is renamed to `a.gif`,
keeping its bytes. -/
theorem c8_rename_shape_witness :
    processFile [aJpg] "a.jpg".data =
      (renameFS [aJpg] "a.jpg".data (replaceLastExt "a.jpg".data "gif".data),
        ⟨1, 1, 0⟩) ∧
    getFileExtension (replaceLastExt "a.jpg".data "gif".data) = "gif".data ∧
    { aJpg with name := replaceLastExt "a.jpg".data "gif".data } ∈
      renameFS [aJpg] "a.jpg".data (replaceLastExt "a.jpg".data "gif".data) :=
  c8_rename_shape [aJpg] "a.jpg".data aJpg "gif".data (by decide) rfl rfl
    (by decide) (by decide) (by decide) (by decide)

/-- Claim C3 (counterexample): a second run is not always rename-free.
With `c.jpg` holding PNG bytes next to `c.png` holding GIF bytes, the
first run skips `c.jpg` (collision with `c.png`) and renames `c.png` to
`c.gif`; the second run then renames `c.jpg` to `c.png`, so the second
run performs one rename, not zero. -/
theorem c3_counterexample :
    (processDirectory ⟨true, (processDirectory ⟨true, [cJpg, cPng]⟩).1⟩).2.renamed = 1 ∧
    (processDirectory ⟨true, (processDirectory ⟨true, [cJpg, cPng]⟩).1⟩).2.renamed ≠ 0 := by
  decide

/-- Claim C3 (amended): the claim holds whenever the first run skips no
rename because of a target-name collision: a second run over the
directory produced by such a first run (names being duplicate-free, as
in a real directory) performs zero renames — after the first run every
remaining entry either has a correct extension or is one the processor
leaves alone. -/
theorem c3_idempotent_without_collisions (d : Dir)
    (hlist : d.listOk = true)
    (hnd : nodupNames d.entries)
    (hzero : runCollisions (d.entries.map (·.name)) d.entries = 0) :
    (processDirectory ⟨true, (processDirectory d).1⟩).2.renamed = 0 := by
  have hinv : ∀ e ∈ d.entries, misnamed e → e.name ∈ d.entries.map (·.name) :=
    fun e he _ => List.mem_map_of_mem (·.name) he
  have hfix := processList_fixes (d.entries.map (·.name)) d.entries hnd hinv hzero
  have hpd : (processDirectory d).1 =
      (processList (d.entries.map (·.name)) d.entries).1 := by
    simp [processDirectory, hlist]
  rw [hpd]
  exact (processList_clean _ _ hfix).2

/-- Witness for C3 at a one-file directory whose `a.jpg` holds GIF
bytes: the first run renames it to `a.gif`, the second renames nothing. -/
theorem c3_idempotent_without_collisions_witness :
    (processDirectory ⟨true, (processDirectory ⟨true, [aJpg]⟩).1⟩).2.renamed = 0 :=
  c3_idempotent_without_collisions ⟨true, [aJpg]⟩ rfl
    (by unfold nodupNames; decide) (by decide)

end FixImages
